import Mathlib

/-!
Verification of the GitOps automation script (`gitops-script.py`).

The script edits YAML manifests in a remote Git repository through an API
client.  We shallowly embed the data it manipulates and the edits it
performs:

* a YAML mapping (Python `dict`) becomes an association list whose keys are
  unique in practice; `dict` assignment, `pop` and lookup become
  `dictInsert`, `dictPop` and `dictGet`;
* a service manifest (`application.yaml`) keeps the two fields the script
  touches: `metadata.annotations` and `spec.source.helm.parameters`;
* each remote mutation (`update_file`, `create_git_ref`, `create_pull`)
  becomes an `Effect` in a trace; `main` becomes a function from the remote
  repository's state and the CLI arguments to the trace of mutations it
  performs, together with a flag telling whether it ran to completion or
  aborted on an unhandled error.
-/

namespace GitOps

/-- One Helm parameter `{name, value}` as it appears under
`spec.source.helm.parameters` of a manifest. -/
structure Param where
  name : String
  value : String
deriving DecidableEq, Repr

/-- Python `dict` assignment `m[k] = v` on an insertion-ordered mapping:
if the key is present its value is updated in place, otherwise the pair is
appended at the end. -/
def dictInsert (m : List (String × String)) (k v : String) : List (String × String) :=
  if m.any (fun p => p.1 = k) then
    m.map (fun p => if p.1 = k then (k, v) else p)
  else
    m ++ [(k, v)]

/-- Python `dict` lookup `m[k]` (first entry with the key), returning `none`
where Python raises `KeyError`. -/
def dictGet : List (String × String) → String → Option String
  | [], _ => none
  | p :: rest, k => if p.1 = k then some p.2 else dictGet rest k

/-- Python `m.pop(k, None)`: the mapping with the key removed; no error when
the key is absent. -/
def dictPop (m : List (String × String)) (k : String) : List (String × String) :=
  m.filter (fun p => ¬ p.1 = k)

/-- The two parts of a service manifest (`application.yaml`) the script
reads and rewrites: `metadata.annotations` and
`spec.source.helm.parameters`.  Everything else in the document is never
touched, so it is not represented. -/
structure Manifest where
  annotations : List (String × String)
  parameters : List Param
deriving DecidableEq, Repr

/-- The annotation key `argocd-image-updater.argoproj.io/{service}.ignore-tags`
built in `pause` and `resume`. -/
def ignoreTagsKey (service : String) : String :=
  "argocd-image-updater.argoproj.io/" ++ service ++ ".ignore-tags"

/-- The document edit performed by `pause`:
`app['metadata']['annotations'][key] = '*'`. -/
def pauseEdit (service : String) (app : Manifest) : Manifest :=
  { app with annotations := dictInsert app.annotations (ignoreTagsKey service) "*" }

/-- The document edit performed by `resume`:
`app['metadata']['annotations'].pop(key, None)`. -/
def resumeEdit (service : String) (app : Manifest) : Manifest :=
  { app with annotations := dictPop app.annotations (ignoreTagsKey service) }

/-- The parameter-list rewrite inside `update_versions`: the `for` loop
copies every parameter whose name is not `image.tag` into `new_params`, then
`{name: 'image.tag', value: tag}` is appended. -/
def updateParams (params : List Param) (tag : String) : List Param :=
  (params.foldl (fun acc p => if ¬ p.name = "image.tag" then acc ++ [p] else acc) [])
    ++ [{ name := "image.tag", value := tag }]

/-- The document edit performed by `update_versions` on one manifest:
`app['spec']['source']['helm']['parameters'] = new_params`. -/
def updateVersionsEdit (app : Manifest) (tag : String) : Manifest :=
  { app with parameters := updateParams app.parameters tag }

/-- The inner loop of `get_versions` over one source-tracking file:
`for param in params: if param['name'] == 'image.tag':
versions[service.name] = param['value']`. -/
def recordParams (versions : List (String × String)) (sname : String)
    (params : List Param) : List (String × String) :=
  params.foldl
    (fun vs p => if p.name = "image.tag" then dictInsert vs sname p.value else vs)
    versions

/-- The outer loop of `get_versions`: each service directory paired with the
content of its source-tracking file (`none` when `get_contents` would raise
because the file is missing).  A missing file aborts the scan with an
unhandled error, carried here as `Except.error`. -/
def getVersions : List (String × Option (List Param)) → List (String × String) →
    Except String (List (String × String))
  | [], versions => Except.ok versions
  | (sname, none) :: _, _ => Except.error sname
  | (sname, some params) :: rest, versions =>
      getVersions rest (recordParams versions sname params)

/-- The net contribution of one source-tracking file to the `versions`
mapping: the value recorded by the last `image.tag` parameter of the file,
`none` when the file has no such parameter. -/
def fileTag (params : List Param) : Option String :=
  params.foldl (fun a p => if p.name = "image.tag" then some p.value else a) none

/-- One mutation of the remote repository: a ref creation
(`repo.create_git_ref`), a file commit (`repo.update_file`) or a pull
request (`repo.create_pull`).  Reads are not effects. -/
inductive Effect where
  | createBranch (name : String) (sha : String)
  | updateFile (path : String) (content : Manifest) (branch : String)
  | createPull (base : String) (head : String) (title : String)
deriving DecidableEq, Repr

/-- The remote repository as the script observes it: its default branch and
that branch's head commit SHA, the existing refs, the service directories
under `environments/{env}` and under `helm-charts`, each service manifest,
and each source-tracking file's Helm parameter list (`none` where the file
is missing). -/
structure RepoState where
  defaultBranch : String
  defaultSha : String
  existingRefs : List String
  envServices : String → List String
  manifest : String → String → Option Manifest
  chartServices : List String
  sourceParams : String → String → Option (List Param)

/-- Path of a service manifest: `environments/{env}/{service}/application.yaml`. -/
def appPath (env service : String) : String :=
  "environments/" ++ env ++ "/" ++ service ++ "/application.yaml"

/-- The loop of the `pause` action over the services of the target
environment: each iteration reads the manifest from the default branch,
applies `pauseEdit` and commits it to `branch`.  The trace lists the
commits made; the flag is `false` when a missing manifest aborted the run
with an unhandled error. -/
def pauseLoop (repo : RepoState) (env branch : String) :
    List String → List Effect × Bool
  | [] => ([], true)
  | s :: rest =>
      match repo.manifest env s with
      | none => ([], false)
      | some app =>
          (Effect.updateFile (appPath env s) (pauseEdit s app) branch ::
              (pauseLoop repo env branch rest).1,
            (pauseLoop repo env branch rest).2)

/-- The loop of the `resume` action, identical to `pauseLoop` but applying
`resumeEdit`. -/
def resumeLoop (repo : RepoState) (env branch : String) :
    List String → List Effect × Bool
  | [] => ([], true)
  | s :: rest =>
      match repo.manifest env s with
      | none => ([], false)
      | some app =>
          (Effect.updateFile (appPath env s) (resumeEdit s app) branch ::
              (resumeLoop repo env branch rest).1,
            (resumeLoop repo env branch rest).2)

/-- The loop of `update_versions` over the services of the target
environment: each iteration reads the manifest, looks up
`versions[service.name]` (a `KeyError` aborts the run), rewrites the
parameter list and commits to `branch`. -/
def updateVersionsLoop (repo : RepoState) (env branch : String)
    (versions : List (String × String)) : List String → List Effect × Bool
  | [] => ([], true)
  | s :: rest =>
      match repo.manifest env s with
      | none => ([], false)
      | some app =>
          match dictGet versions s with
          | none => ([], false)
          | some tag =>
              (Effect.updateFile (appPath env s) (updateVersionsEdit app tag) branch ::
                  (updateVersionsLoop repo env branch versions rest).1,
                (updateVersionsLoop repo env branch versions rest).2)

/-- `create_branch`: reads the default branch's head SHA and creates
`refs/heads/{branch}` pointing at it; `create_git_ref` raises when the ref
already exists. -/
def createBranchStep (repo : RepoState) (branch : String) : List Effect × Bool :=
  if branch ∈ repo.existingRefs then ([], false)
  else ([Effect.createBranch branch repo.defaultSha], true)

/-- The `pause` action of `main`: create the branch, pause every service of
the target environment, open the pull request. -/
def pauseAction (repo : RepoState) (targetEnv today : String) : List Effect × Bool :=
  let newBranch := "pause-" ++ targetEnv ++ "-" ++ today
  let step := createBranchStep repo newBranch
  if step.2 then
    let res := pauseLoop repo targetEnv newBranch (repo.envServices targetEnv)
    if res.2 then
      (step.1 ++ res.1 ++
        [Effect.createPull repo.defaultBranch newBranch
          ("Freeze the " ++ targetEnv ++ " environment.")], true)
    else (step.1 ++ res.1, false)
  else (step.1, false)

/-- The `resume` action of `main`. -/
def resumeAction (repo : RepoState) (targetEnv today : String) : List Effect × Bool :=
  let newBranch := "resume-" ++ targetEnv ++ "-" ++ today
  let step := createBranchStep repo newBranch
  if step.2 then
    let res := resumeLoop repo targetEnv newBranch (repo.envServices targetEnv)
    if res.2 then
      (step.1 ++ res.1 ++
        [Effect.createPull repo.defaultBranch newBranch
          ("Unfreeze the " ++ targetEnv ++ " environment.")], true)
    else (step.1 ++ res.1, false)
  else (step.1, false)

/-- The `push` action of `main`: create the branch, collect the latest
versions from the source environment's source-tracking files under
`helm-charts`, rewrite every manifest of the target environment, open the
pull request. -/
def pushAction (repo : RepoState) (sourceEnv targetEnv today : String) :
    List Effect × Bool :=
  let newBranch := "prod-push-" ++ today
  let step := createBranchStep repo newBranch
  if step.2 then
    match getVersions
        (repo.chartServices.map (fun n => (n, repo.sourceParams n sourceEnv))) [] with
    | Except.error _ => (step.1, false)
    | Except.ok latestVersions =>
        let res :=
          updateVersionsLoop repo targetEnv newBranch latestVersions
            (repo.envServices targetEnv)
        if res.2 then
          (step.1 ++ res.1 ++
            [Effect.createPull repo.defaultBranch newBranch "Production Push."], true)
        else (step.1 ++ res.1, false)
  else (step.1, false)

/-- `main`: three `if` blocks on the action string, executed in order; an
unhandled error in one block stops the process before the later blocks are
reached.  The trace collects every mutation actually performed. -/
def mainRun (repo : RepoState) (action sourceEnv targetEnv today : String) :
    List Effect × Bool :=
  let r1 := if action = "pause" then pauseAction repo targetEnv today else ([], true)
  if r1.2 then
    let r2 := if action = "resume" then resumeAction repo targetEnv today else ([], true)
    if r2.2 then
      let r3 :=
        if action = "push" then pushAction repo sourceEnv targetEnv today else ([], true)
      (r1.1 ++ r2.1 ++ r3.1, r3.2)
    else (r1.1 ++ r2.1, false)
  else (r1.1, false)

/-- A concrete service manifest used to exercise the definitions. -/
def sampleManifest : Manifest :=
  { annotations := [("a", "1")],
    parameters := [{ name := "replicas", value := "3" },
                   { name := "image.tag", value := "v1.0.0" }] }

/-- A concrete remote repository with one service `svc` in every
environment, used to exercise `mainRun`. -/
def sampleRepo : RepoState :=
  { defaultBranch := "main",
    defaultSha := "abc123",
    existingRefs := ["main"],
    envServices := fun _ => ["svc"],
    manifest := fun _ s => if s = "svc" then some sampleManifest else none,
    chartServices := ["svc"],
    sourceParams := fun n e =>
      if n = "svc" ∧ e = "dev" then some [{ name := "image.tag", value := "v1.2.3" }]
      else none }

/-! ### Facts about the dict operations -/

theorem dictInsert_cons_of_eq (p : String × String) (m : List (String × String))
    (k v : String) (h : p.1 = k) :
    dictInsert (p :: m) k v = (k, v) :: m.map (fun q => if q.1 = k then (k, v) else q) := by
  simp [dictInsert, h]

theorem dictInsert_cons_of_ne (p : String × String) (m : List (String × String))
    (k v : String) (h : ¬ p.1 = k) :
    dictInsert (p :: m) k v = p :: dictInsert m k v := by
  by_cases ha : m.any (fun q => q.1 = k) <;> simp [dictInsert, h, ha]

theorem dictGet_map_of_ne (m : List (String × String)) (k v a : String) (h : ¬ k = a) :
    dictGet (m.map fun q => if q.1 = k then (k, v) else q) a = dictGet m a := by
  induction m with
  | nil => rfl
  | cons p m ih =>
      by_cases hp : p.1 = k
      · simp [dictGet, hp, h, ih]
      · simp [dictGet, hp, ih]

theorem dictGet_dictInsert (m : List (String × String)) (k v a : String) :
    dictGet (dictInsert m k v) a = if k = a then some v else dictGet m a := by
  induction m with
  | nil => simp [dictInsert, dictGet]
  | cons p m ih =>
      by_cases hp : p.1 = k
      · rw [dictInsert_cons_of_eq p m k v hp]
        by_cases hka : k = a
        · simp [dictGet, hka]
        · simp [dictGet, hka, dictGet_map_of_ne m k v a hka, hp]
      · rw [dictInsert_cons_of_ne p m k v hp]
        by_cases hpa : p.1 = a
        · have hka : ¬ k = a := fun hka => hp (hpa.trans hka.symm)
          simp [dictGet, hpa, hka]
        · simp [dictGet, hpa, ih]

theorem dictGet_eq_none_iff (m : List (String × String)) (k : String) :
    dictGet m k = none ↔ ∀ p ∈ m, ¬ p.1 = k := by
  induction m with
  | nil => simp [dictGet]
  | cons p m ih => by_cases hp : p.1 = k <;> simp [dictGet, hp, ih]

theorem dictInsert_of_absent (m : List (String × String)) (k v : String)
    (h : dictGet m k = none) : dictInsert m k v = m ++ [(k, v)] := by
  have hall := (dictGet_eq_none_iff m k).1 h
  have hany : m.any (fun p => p.1 = k) = false := by
    simp only [List.any_eq_false, decide_eq_true_eq]
    exact hall
  simp [dictInsert, hany]

theorem dictPop_map_subst (m : List (String × String)) (k v : String) :
    dictPop (m.map fun q => if q.1 = k then (k, v) else q) k = dictPop m k := by
  induction m with
  | nil => rfl
  | cons p m ih =>
      simp only [dictPop, decide_not] at ih ⊢
      by_cases hp : p.1 = k <;> simp [hp, ih]

theorem dictPop_dictInsert (m : List (String × String)) (k v : String) :
    dictPop (dictInsert m k v) k = dictPop m k := by
  induction m with
  | nil => simp [dictInsert, dictPop]
  | cons p m ih =>
      by_cases hp : p.1 = k
      · rw [dictInsert_cons_of_eq p m k v hp]
        have h2 := dictPop_map_subst m k v
        simp only [dictPop, decide_not] at h2 ⊢
        simp [hp, h2]
      · rw [dictInsert_cons_of_ne p m k v hp]
        simp only [dictPop, decide_not] at ih ⊢
        simp [hp, ih]

theorem dictPop_of_absent (m : List (String × String)) (k : String)
    (h : dictGet m k = none) : dictPop m k = m := by
  have hall := (dictGet_eq_none_iff m k).1 h
  apply List.filter_eq_self.mpr
  intro p hp
  simpa using hall p hp

theorem dictGet_dictPop (m : List (String × String)) (k : String) :
    dictGet (dictPop m k) k = none := by
  induction m with
  | nil => rfl
  | cons p m ih =>
      simp only [dictPop, decide_not] at ih ⊢
      by_cases hp : p.1 = k <;> simp [hp, ih, dictGet]

theorem dictInsert_idem (m : List (String × String)) (k v : String) :
    dictInsert (dictInsert m k v) k v = dictInsert m k v := by
  induction m with
  | nil => simp [dictInsert]
  | cons p m ih =>
      by_cases hp : p.1 = k
      · rw [dictInsert_cons_of_eq p m k v hp, dictInsert_cons_of_eq _ _ _ _ rfl]
        rw [List.map_map]
        refine congrArg ((k, v) :: ·) (List.map_congr_left fun q hq => ?_)
        by_cases hq' : q.1 = k <;> simp [Function.comp, hq']
      · rw [dictInsert_cons_of_ne p m k v hp, dictInsert_cons_of_ne p _ k v hp, ih]

/-! ### Facts about getVersions -/

theorem fileTag_foldl (params : List Param) :
    ∀ o : Option String,
      params.foldl (fun a p => if p.name = "image.tag" then some p.value else a) o =
        match fileTag params with
        | some v => some v
        | none => o := by
  induction params with
  | nil => intro o; rfl
  | cons p ps ih =>
      intro o
      have h1 := ih (if p.name = "image.tag" then some p.value else o)
      have h2 := ih (if p.name = "image.tag" then some p.value else none)
      simp only [fileTag, List.foldl_cons] at h1 h2 ⊢
      rw [h1, h2]
      cases hcase : fileTag ps <;> by_cases hp : p.name = "image.tag" <;>
        simp [fileTag] at hcase <;> simp [hp, hcase]

theorem recordParams_dictGet (ps : List Param) :
    ∀ (acc : List (String × String)) (n k : String),
      dictGet (recordParams acc n ps) k =
        if k = n then
          match fileTag ps with
          | some v => some v
          | none => dictGet acc k
        else dictGet acc k := by
  induction ps with
  | nil =>
      intro acc n k
      by_cases h : k = n <;> simp [recordParams, fileTag, h]
  | cons p ps ih =>
      intro acc n k
      simp only [recordParams, List.foldl_cons] at ih ⊢
      rw [ih]
      have hacc : dictGet (if p.name = "image.tag" then dictInsert acc n p.value else acc) k
          = if p.name = "image.tag" ∧ k = n then some p.value else dictGet acc k := by
        by_cases hp : p.name = "image.tag"
        · rw [if_pos hp, dictGet_dictInsert]
          by_cases hk : k = n
          · subst hk; simp [hp]
          · have hnk : ¬ n = k := fun h => hk h.symm
            simp [hp, hk, hnk]
        · simp [hp]
      rw [hacc]
      have hft := fileTag_foldl ps (if p.name = "image.tag" then some p.value else none)
      simp only [fileTag, List.foldl_cons]
      rw [hft]
      by_cases hk : k = n <;> cases hcase : fileTag ps <;>
        by_cases hp : p.name = "image.tag" <;> simp [fileTag] at hcase <;>
        simp [hk, hp, hcase]

theorem getVersions_untouched :
    ∀ (files : List (String × Option (List Param))) (acc m : List (String × String))
      (k : String),
      getVersions files acc = Except.ok m → k ∉ files.map Prod.fst →
      dictGet m k = dictGet acc k := by
  intro files
  induction files with
  | nil =>
      intro acc m k h _
      simp only [getVersions, Except.ok.injEq] at h
      rw [h]
  | cons f rest ih =>
      obtain ⟨n, pso⟩ := f
      cases pso with
      | none =>
          intro acc m k h _
          simp [getVersions] at h
      | some ps =>
          intro acc m k h hk
          simp only [List.map_cons, List.mem_cons, not_or] at hk
          simp only [getVersions] at h
          rw [ih (recordParams acc n ps) m k h hk.2, recordParams_dictGet]
          simp [hk.1]

theorem getVersions_error_of_missing :
    ∀ (files : List (String × Option (List Param))) (s : String)
      (acc : List (String × String)),
      (s, (none : Option (List Param))) ∈ files →
      ∃ e, getVersions files acc = Except.error e := by
  intro files
  induction files with
  | nil => intro s acc h; simp at h
  | cons f rest ih =>
      obtain ⟨n, pso⟩ := f
      cases pso with
      | none => intro s acc _; exact ⟨n, rfl⟩
      | some ps =>
          intro s acc h
          rcases List.mem_cons.1 h with heq | hmem
          · cases heq
          · exact ih s (recordParams acc n ps) hmem

theorem getVersions_own_file :
    ∀ (files : List (String × Option (List Param))) (acc m : List (String × String))
      (s : String) (ps : List Param),
      getVersions files acc = Except.ok m → (s, some ps) ∈ files →
      (files.map Prod.fst).Nodup →
      dictGet m s =
        match fileTag ps with
        | some v => some v
        | none => dictGet acc s := by
  intro files
  induction files with
  | nil => intro acc m s ps _ hmem _; simp at hmem
  | cons f rest ih =>
      obtain ⟨n, pso⟩ := f
      cases pso with
      | none => intro acc m s ps h _ _; simp [getVersions] at h
      | some qs =>
          intro acc m s ps h hmem hnodup
          simp only [List.map_cons, List.nodup_cons] at hnodup
          simp only [getVersions] at h
          rcases List.mem_cons.1 hmem with heq | hmem2
          · injection heq with h1 h2
            subst h1
            injection h2 with h2
            subst h2
            rw [getVersions_untouched rest (recordParams acc s ps) m s h hnodup.1,
              recordParams_dictGet]
            simp
          · have hs_mem : s ∈ rest.map Prod.fst :=
              List.mem_map.2 ⟨(s, some ps), hmem2, rfl⟩
            have hsn : ¬ s = n := fun e => hnodup.1 (e ▸ hs_mem)
            rw [ih (recordParams acc n qs) m s ps h hmem2 hnodup.2]
            cases hcase : fileTag ps <;>
              simp [hcase, recordParams_dictGet, hsn]

theorem fileTag_eq_getLast (ps : List Param) :
    fileTag ps = ((ps.filter fun p => p.name = "image.tag").getLast?).map Param.value := by
  induction ps with
  | nil => rfl
  | cons p ps ih =>
      have h1 : fileTag (p :: ps) =
          match fileTag ps with
          | some v => some v
          | none => if p.name = "image.tag" then some p.value else none := by
        simp only [fileTag, List.foldl_cons]
        exact fileTag_foldl ps (if p.name = "image.tag" then some p.value else none)
      rw [h1]
      by_cases hp : p.name = "image.tag"
      · rw [List.filter_cons_of_pos (by simp [hp])]
        cases hfil : ps.filter (fun p => p.name = "image.tag") with
        | nil => rw [ih, hfil]; simp [hp]
        | cons q l =>
            rw [ih, hfil, List.getLast?_cons_cons]
            cases hlast : (q :: l).getLast? with
            | none =>
                rw [List.getLast?_eq_none_iff] at hlast
                cases hlast
            | some r => simp
      · rw [List.filter_cons_of_neg (by simp [hp]), ih]
        cases hlast : (ps.filter fun p => p.name = "image.tag").getLast? <;> simp [hp]

/-! ### Facts about the parameter rewrite -/

theorem updateParams_foldl (l : List Param) :
    ∀ acc : List Param,
      l.foldl (fun acc p => if ¬ p.name = "image.tag" then acc ++ [p] else acc) acc =
        acc ++ l.filter (fun p => ¬ p.name = "image.tag") := by
  induction l with
  | nil => intro acc; simp
  | cons p l ih =>
      intro acc
      by_cases hp : p.name = "image.tag"
      · rw [List.foldl_cons, if_neg (fun h => h hp), ih,
          List.filter_cons_of_neg (by simp [hp])]
      · rw [List.foldl_cons, if_pos hp, ih, List.filter_cons_of_pos (by simp [hp]),
          List.append_assoc, List.singleton_append]

theorem updateParams_eq (params : List Param) (tag : String) :
    updateParams params tag =
      params.filter (fun p => ¬ p.name = "image.tag") ++
        [{ name := "image.tag", value := tag }] := by
  rw [updateParams, updateParams_foldl, List.nil_append]

theorem filter_tag_of_filtered (params : List Param) :
    (params.filter (fun p => ¬ p.name = "image.tag")).filter
      (fun p => p.name = "image.tag") = [] := by
  induction params with
  | nil => rfl
  | cons p l ih => by_cases hp : p.name = "image.tag" <;> simp [hp, ih]

/-! ### Facts about the effect traces -/

theorem pauseLoop_effects (repo : RepoState) (env nb : String) :
    ∀ (svcs : List String) (e : Effect), e ∈ (pauseLoop repo env nb svcs).1 →
      ∃ p c, e = Effect.updateFile p c nb := by
  intro svcs
  induction svcs with
  | nil => intro e he; simp [pauseLoop] at he
  | cons s rest ih =>
      intro e he
      simp only [pauseLoop] at he
      cases hm : repo.manifest env s with
      | none => rw [hm] at he; simp at he
      | some app =>
          rw [hm] at he
          rcases List.mem_cons.1 he with rfl | he2
          · exact ⟨_, _, rfl⟩
          · exact ih e he2

theorem resumeLoop_effects (repo : RepoState) (env nb : String) :
    ∀ (svcs : List String) (e : Effect), e ∈ (resumeLoop repo env nb svcs).1 →
      ∃ p c, e = Effect.updateFile p c nb := by
  intro svcs
  induction svcs with
  | nil => intro e he; simp [resumeLoop] at he
  | cons s rest ih =>
      intro e he
      simp only [resumeLoop] at he
      cases hm : repo.manifest env s with
      | none => rw [hm] at he; simp at he
      | some app =>
          rw [hm] at he
          rcases List.mem_cons.1 he with rfl | he2
          · exact ⟨_, _, rfl⟩
          · exact ih e he2

theorem updateVersionsLoop_effects (repo : RepoState) (env nb : String)
    (versions : List (String × String)) :
    ∀ (svcs : List String) (e : Effect),
      e ∈ (updateVersionsLoop repo env nb versions svcs).1 →
      ∃ p c, e = Effect.updateFile p c nb := by
  intro svcs
  induction svcs with
  | nil => intro e he; simp [updateVersionsLoop] at he
  | cons s rest ih =>
      intro e he
      simp only [updateVersionsLoop] at he
      cases hm : repo.manifest env s with
      | none => rw [hm] at he; simp at he
      | some app =>
          rw [hm] at he
          cases hv : dictGet versions s with
          | none => rw [hv] at he; simp at he
          | some tag =>
              rw [hv] at he
              rcases List.mem_cons.1 he with rfl | he2
              · exact ⟨_, _, rfl⟩
              · exact ih e he2

theorem pauseAction_updateFile (repo : RepoState) (tenv today : String)
    (p : String) (c : Manifest) (b : String)
    (hmem : Effect.updateFile p c b ∈ (pauseAction repo tenv today).1) :
    b = "pause-" ++ tenv ++ "-" ++ today ∧
    Effect.createBranch b repo.defaultSha ∈ (pauseAction repo tenv today).1 ∧
    b ∉ repo.existingRefs := by
  by_cases hex : ("pause-" ++ tenv ++ "-" ++ today) ∈ repo.existingRefs
  · simp [pauseAction, createBranchStep, hex] at hmem
  · have hb : b = "pause-" ++ tenv ++ "-" ++ today := by
      by_cases hres : (pauseLoop repo tenv ("pause-" ++ tenv ++ "-" ++ today)
          (repo.envServices tenv)).2 <;>
      · simp [pauseAction, createBranchStep, hex, hres] at hmem
        obtain ⟨p', c', heq⟩ := pauseLoop_effects repo tenv _ _ _ hmem
        injection heq with h1 h2 h3
    subst hb
    refine ⟨rfl, ?_, hex⟩
    by_cases hres : (pauseLoop repo tenv ("pause-" ++ tenv ++ "-" ++ today)
        (repo.envServices tenv)).2 <;>
      simp [pauseAction, createBranchStep, hex, hres]

theorem pauseAction_createBranch (repo : RepoState) (tenv today n sha : String)
    (hmem : Effect.createBranch n sha ∈ (pauseAction repo tenv today).1) :
    n = "pause-" ++ tenv ++ "-" ++ today ∧ sha = repo.defaultSha := by
  by_cases hex : ("pause-" ++ tenv ++ "-" ++ today) ∈ repo.existingRefs
  · simp [pauseAction, createBranchStep, hex] at hmem
  · by_cases hres : (pauseLoop repo tenv ("pause-" ++ tenv ++ "-" ++ today)
        (repo.envServices tenv)).2 <;>
    · simp [pauseAction, createBranchStep, hex, hres] at hmem
      rcases hmem with ⟨h1, h2⟩ | hmem2
      · exact ⟨h1, h2⟩
      · obtain ⟨p', c', heq⟩ := pauseLoop_effects repo tenv _ _ _ hmem2
        simp at heq

theorem resumeAction_updateFile (repo : RepoState) (tenv today : String)
    (p : String) (c : Manifest) (b : String)
    (hmem : Effect.updateFile p c b ∈ (resumeAction repo tenv today).1) :
    b = "resume-" ++ tenv ++ "-" ++ today ∧
    Effect.createBranch b repo.defaultSha ∈ (resumeAction repo tenv today).1 ∧
    b ∉ repo.existingRefs := by
  by_cases hex : ("resume-" ++ tenv ++ "-" ++ today) ∈ repo.existingRefs
  · simp [resumeAction, createBranchStep, hex] at hmem
  · have hb : b = "resume-" ++ tenv ++ "-" ++ today := by
      by_cases hres : (resumeLoop repo tenv ("resume-" ++ tenv ++ "-" ++ today)
          (repo.envServices tenv)).2 <;>
      · simp [resumeAction, createBranchStep, hex, hres] at hmem
        obtain ⟨p', c', heq⟩ := resumeLoop_effects repo tenv _ _ _ hmem
        injection heq with h1 h2 h3
    subst hb
    refine ⟨rfl, ?_, hex⟩
    by_cases hres : (resumeLoop repo tenv ("resume-" ++ tenv ++ "-" ++ today)
        (repo.envServices tenv)).2 <;>
      simp [resumeAction, createBranchStep, hex, hres]

theorem resumeAction_createBranch (repo : RepoState) (tenv today n sha : String)
    (hmem : Effect.createBranch n sha ∈ (resumeAction repo tenv today).1) :
    n = "resume-" ++ tenv ++ "-" ++ today ∧ sha = repo.defaultSha := by
  by_cases hex : ("resume-" ++ tenv ++ "-" ++ today) ∈ repo.existingRefs
  · simp [resumeAction, createBranchStep, hex] at hmem
  · by_cases hres : (resumeLoop repo tenv ("resume-" ++ tenv ++ "-" ++ today)
        (repo.envServices tenv)).2 <;>
    · simp [resumeAction, createBranchStep, hex, hres] at hmem
      rcases hmem with ⟨h1, h2⟩ | hmem2
      · exact ⟨h1, h2⟩
      · obtain ⟨p', c', heq⟩ := resumeLoop_effects repo tenv _ _ _ hmem2
        simp at heq

theorem pushAction_updateFile (repo : RepoState) (senv tenv today : String)
    (p : String) (c : Manifest) (b : String)
    (hmem : Effect.updateFile p c b ∈ (pushAction repo senv tenv today).1) :
    b = "prod-push-" ++ today ∧
    Effect.createBranch b repo.defaultSha ∈ (pushAction repo senv tenv today).1 ∧
    b ∉ repo.existingRefs := by
  by_cases hex : ("prod-push-" ++ today) ∈ repo.existingRefs
  · simp [pushAction, createBranchStep, hex] at hmem
  · cases hgv : getVersions
        (repo.chartServices.map fun n => (n, repo.sourceParams n senv)) [] with
    | error e => simp [pushAction, createBranchStep, hex, hgv] at hmem
    | ok lv =>
        have hb : b = "prod-push-" ++ today := by
          by_cases hres : (updateVersionsLoop repo tenv ("prod-push-" ++ today) lv
              (repo.envServices tenv)).2 <;>
          · simp [pushAction, createBranchStep, hex, hgv, hres] at hmem
            obtain ⟨p', c', heq⟩ := updateVersionsLoop_effects repo tenv _ _ _ _ hmem
            injection heq with h1 h2 h3
        subst hb
        refine ⟨rfl, ?_, hex⟩
        by_cases hres : (updateVersionsLoop repo tenv ("prod-push-" ++ today) lv
            (repo.envServices tenv)).2 <;>
          simp [pushAction, createBranchStep, hex, hgv, hres]

theorem pushAction_createBranch (repo : RepoState) (senv tenv today n sha : String)
    (hmem : Effect.createBranch n sha ∈ (pushAction repo senv tenv today).1) :
    n = "prod-push-" ++ today ∧ sha = repo.defaultSha := by
  by_cases hex : ("prod-push-" ++ today) ∈ repo.existingRefs
  · simp [pushAction, createBranchStep, hex] at hmem
  · cases hgv : getVersions
        (repo.chartServices.map fun n => (n, repo.sourceParams n senv)) [] with
    | error e =>
        simp [pushAction, createBranchStep, hex, hgv] at hmem
        exact hmem
    | ok lv =>
        by_cases hres : (updateVersionsLoop repo tenv ("prod-push-" ++ today) lv
            (repo.envServices tenv)).2 <;>
        · simp [pushAction, createBranchStep, hex, hgv, hres] at hmem
          rcases hmem with ⟨h1, h2⟩ | hmem2
          · exact ⟨h1, h2⟩
          · obtain ⟨p', c', heq⟩ := updateVersionsLoop_effects repo tenv _ _ _ _ hmem2
            simp at heq

theorem mainRun_trace (repo : RepoState) (action senv tenv today : String) :
    (mainRun repo action senv tenv today).1 =
      if action = "pause" then (pauseAction repo tenv today).1
      else if action = "resume" then (resumeAction repo tenv today).1
      else if action = "push" then (pushAction repo senv tenv today).1
      else [] := by
  by_cases h1 : action = "pause"
  · subst h1
    by_cases hr : (pauseAction repo tenv today).2 <;> simp [mainRun, hr]
  · by_cases h2 : action = "resume"
    · subst h2
      by_cases hr : (resumeAction repo tenv today).2 <;> simp [mainRun, hr]
    · by_cases h3 : action = "push"
      · subst h3
        by_cases hr : (pushAction repo senv tenv today).2 <;> simp [mainRun, hr]
      · simp [mainRun, h1, h2, h3]

/-! ### The claims -/

/-- Claim C1: for every service manifest and every versions mapping containing
the service, `update_versions` produces a parameter list equal to the original
with every `image.tag` entry removed (order of the rest preserved) followed by
exactly one appended `image.tag` entry holding `versions[service]`; the result
has exactly one `image.tag` entry and it is last. -/
theorem updateVersions_parameter_list (versions : List (String × String))
    (service tag : String) (app : Manifest)
    (h : dictGet versions service = some tag) :
    (updateVersionsEdit app tag).parameters =
      app.parameters.filter (fun p => ¬ p.name = "image.tag") ++
        [{ name := "image.tag", value := tag }] ∧
    ((updateVersionsEdit app tag).parameters.filter
        (fun p => p.name = "image.tag")).length = 1 ∧
    (updateVersionsEdit app tag).parameters.getLast? =
      some { name := "image.tag", value := tag } := by
  refine ⟨updateParams_eq app.parameters tag, ?_, ?_⟩
  · show ((updateParams app.parameters tag).filter _).length = 1
    rw [updateParams_eq, List.filter_append, filter_tag_of_filtered]
    simp
  · show (updateParams app.parameters tag).getLast? = _
    rw [updateParams_eq, List.getLast?_concat]

/-- Witness for C1 at the spec's scenario: parameters
`[{replicas, 3}, {image.tag, v1.0.0}]` with versions `{svc: v1.2.3}` turn into
`[{replicas, 3}, {image.tag, v1.2.3}]`. -/
theorem updateVersions_parameter_list_witness :
    dictGet [("svc", "v1.2.3")] "svc" = some "v1.2.3" ∧
    (updateVersionsEdit sampleManifest "v1.2.3").parameters =
      [{ name := "replicas", value := "3" }, { name := "image.tag", value := "v1.2.3" }] := by
  refine ⟨by decide, ?_⟩
  rw [(updateVersions_parameter_list [("svc", "v1.2.3")] "svc" "v1.2.3" sampleManifest
    (by decide)).1]
  decide

/-- Claim C2 counterexample: when the ignore-tags key is already present
before `pause`, the `pause`-then-`resume` round trip deletes it instead of
restoring its old value, so the annotation map is not restored. -/
theorem pause_resume_not_roundtrip :
    resumeEdit "svc" (pauseEdit "svc"
        { annotations := [("argocd-image-updater.argoproj.io/svc.ignore-tags", "v1")],
          parameters := [] }) ≠
      ({ annotations := [("argocd-image-updater.argoproj.io/svc.ignore-tags", "v1")],
          parameters := [] } : Manifest) := by decide

/-- Claim C2 (amended): `pause` followed by `resume` on the same manifest
equals removing the ignore-tags key from the original annotations, so the
round trip restores the annotation map exactly when the key was absent before
`pause`; a pre-existing entry at that key is removed, not restored. -/
theorem pause_resume_roundtrip (app : Manifest) (service : String) :
    (resumeEdit service (pauseEdit service app)).annotations =
      dictPop app.annotations (ignoreTagsKey service) ∧
    (dictGet app.annotations (ignoreTagsKey service) = none →
      resumeEdit service (pauseEdit service app) = app) := by
  constructor
  · exact dictPop_dictInsert app.annotations (ignoreTagsKey service) "*"
  · intro h
    show ({ app with
        annotations := dictPop (dictInsert app.annotations (ignoreTagsKey service) "*")
          (ignoreTagsKey service) } : Manifest) = app
    rw [dictPop_dictInsert, dictPop_of_absent _ _ h]

/-- Witness for C2 (amended): a manifest without the key round trips to
itself. -/
theorem pause_resume_roundtrip_witness :
    resumeEdit "svc" (pauseEdit "svc" { annotations := [("a", "1")], parameters := [] })
      = ({ annotations := [("a", "1")], parameters := [] } : Manifest) :=
  (pause_resume_roundtrip { annotations := [("a", "1")], parameters := [] } "svc").2
    (by decide)

/-- Claim C3 counterexample: a source-tracking file that exists but has no
`image.tag` parameter makes `get_versions` neither raise nor return the
service: it succeeds and silently omits the service from the mapping. -/
theorem getVersions_no_tag_counterexample :
    getVersions [("svc", some [{ name := "replicas", value := "3" }])] [] =
        Except.ok [] ∧
    dictGet [] "svc" = none :=
  ⟨rfl, rfl⟩

/-- Claim C3 (amended): `get_versions` raises when a service's source-tracking
file is missing; when every file is present, each enumerated service is mapped
to its file's (last) `image.tag` value, and a file without an `image.tag`
parameter raises nothing — the service is just omitted from the result
(`dictGet m s = fileTag ps`, which is `none` exactly then). -/
theorem getVersions_amended (files : List (String × Option (List Param)))
    (hnodup : (files.map Prod.fst).Nodup) :
    ((∃ s, (s, (none : Option (List Param))) ∈ files) →
      ∃ e, getVersions files [] = Except.error e) ∧
    (∀ (m : List (String × String)) (s : String) (ps : List Param),
      getVersions files [] = Except.ok m → (s, some ps) ∈ files →
      dictGet m s = fileTag ps) := by
  constructor
  · rintro ⟨s, hs⟩
    exact getVersions_error_of_missing files s [] hs
  · intro m s ps hok hmem
    have h := getVersions_own_file files [] m s ps hok hmem hnodup
    rw [h]
    cases hcase : fileTag ps <;> simp [dictGet]

/-- Witness for C3 (amended) at the spec's scenario: one service `svc` whose
file holds `[{image.tag, v1.2.3}]` is mapped to `v1.2.3`. -/
theorem getVersions_amended_witness :
    dictGet [("svc", "v1.2.3")] "svc" =
      fileTag [{ name := "image.tag", value := "v1.2.3" }] :=
  (getVersions_amended [("svc", some [{ name := "image.tag", value := "v1.2.3" }])]
      (by decide)).2 [("svc", "v1.2.3")] "svc" _ rfl (by decide)

/-- Claim C10: when a service's source-tracking file holds two or more
`image.tag` parameters, `get_versions` maps the service to the value of the
last such parameter. -/
theorem getVersions_last_tag_wins (files : List (String × Option (List Param)))
    (m : List (String × String)) (s : String) (ps : List Param)
    (hnodup : (files.map Prod.fst).Nodup)
    (hok : getVersions files [] = Except.ok m)
    (hmem : (s, some ps) ∈ files)
    (h2 : 2 ≤ (ps.filter (fun p => p.name = "image.tag")).length) :
    dictGet m s =
      ((ps.filter (fun p => p.name = "image.tag")).getLast?).map Param.value := by
  have h := getVersions_own_file files [] m s ps hok hmem hnodup
  have h3 : dictGet m s = fileTag ps := by
    rw [h]
    cases hcase : fileTag ps <;> simp [dictGet]
  rw [h3, fileTag_eq_getLast]

/-- Witness for C10: a file with `image.tag` values `v1` then `v2` yields
`v2`. -/
theorem getVersions_last_tag_wins_witness :
    dictGet [("svc", "v2")] "svc" =
      (([{ name := "image.tag", value := "v1" },
          { name := "image.tag", value := "v2" }].filter
            (fun p => p.name = "image.tag")).getLast?).map Param.value :=
  getVersions_last_tag_wins
    [("svc", some [{ name := "image.tag", value := "v1" },
        { name := "image.tag", value := "v2" }])]
    [("svc", "v2")] "svc"
    [{ name := "image.tag", value := "v1" }, { name := "image.tag", value := "v2" }]
    (by decide) rfl (by decide) (by decide)

/-- Claim C4: every file write performed by `main` (through `pause`, `resume`
or `update_versions`) targets the branch freshly created by `create_branch`
from the default branch's head SHA, never the default branch: a run's trace
contains a matching `createBranch` for each write's branch, and that branch
did not previously exist, hence differs from the default branch. -/
theorem mainRun_writes_only_fresh_branch (repo : RepoState)
    (action sourceEnv targetEnv today : String)
    (p : String) (c : Manifest) (b : String)
    (hdef : repo.defaultBranch ∈ repo.existingRefs)
    (hmem : Effect.updateFile p c b ∈ (mainRun repo action sourceEnv targetEnv today).1) :
    Effect.createBranch b repo.defaultSha ∈
        (mainRun repo action sourceEnv targetEnv today).1 ∧
    ¬ b = repo.defaultBranch := by
  rw [mainRun_trace] at hmem ⊢
  by_cases h1 : action = "pause"
  · rw [if_pos h1] at hmem ⊢
    obtain ⟨hb, hcb, hnin⟩ := pauseAction_updateFile repo targetEnv today p c b hmem
    exact ⟨hcb, fun e => hnin (by rw [e]; exact hdef)⟩
  · rw [if_neg h1] at hmem ⊢
    by_cases h2 : action = "resume"
    · rw [if_pos h2] at hmem ⊢
      obtain ⟨hb, hcb, hnin⟩ := resumeAction_updateFile repo targetEnv today p c b hmem
      exact ⟨hcb, fun e => hnin (by rw [e]; exact hdef)⟩
    · rw [if_neg h2] at hmem ⊢
      by_cases h3 : action = "push"
      · rw [if_pos h3] at hmem ⊢
        obtain ⟨hb, hcb, hnin⟩ :=
          pushAction_updateFile repo sourceEnv targetEnv today p c b hmem
        exact ⟨hcb, fun e => hnin (by rw [e]; exact hdef)⟩
      · rw [if_neg h3] at hmem
        simp at hmem

/-- Witness for C4: a concrete `pause` run on `sampleRepo` commits to the
fresh `pause-prod-2024-01-01` branch, which is not the default `main`. -/
theorem mainRun_writes_only_fresh_branch_witness :
    Effect.createBranch "pause-prod-2024-01-01" "abc123" ∈
        (mainRun sampleRepo "pause" "dev" "prod" "2024-01-01").1 ∧
    ¬ "pause-prod-2024-01-01" = "main" :=
  mainRun_writes_only_fresh_branch sampleRepo "pause" "dev" "prod" "2024-01-01"
    (appPath "prod" "svc") (pauseEdit "svc" sampleManifest) "pause-prod-2024-01-01"
    (by decide) (by decide)

/-- Claim C8: branch names are a deterministic function of action, target
environment and date: `pause` creates `pause-{target_env}-{date}`, `resume`
creates `resume-{target_env}-{date}`, `push` creates `prod-push-{date}`; in
particular `pause`/`staging`/`2024-01-01` gives `pause-staging-2024-01-01`. -/
theorem mainRun_branch_names (repo : RepoState) (senv tenv today : String) :
    (∀ n sha, Effect.createBranch n sha ∈ (mainRun repo "pause" senv tenv today).1 →
        n = "pause-" ++ tenv ++ "-" ++ today) ∧
    (∀ n sha, Effect.createBranch n sha ∈ (mainRun repo "resume" senv tenv today).1 →
        n = "resume-" ++ tenv ++ "-" ++ today) ∧
    (∀ n sha, Effect.createBranch n sha ∈ (mainRun repo "push" senv tenv today).1 →
        n = "prod-push-" ++ today) ∧
    "pause-" ++ "staging" ++ "-" ++ "2024-01-01" = "pause-staging-2024-01-01" := by
  refine ⟨?_, ?_, ?_, by decide⟩
  · intro n sha hmem
    rw [mainRun_trace, if_pos rfl] at hmem
    exact (pauseAction_createBranch repo tenv today n sha hmem).1
  · intro n sha hmem
    rw [mainRun_trace, if_neg (by decide), if_pos rfl] at hmem
    exact (resumeAction_createBranch repo tenv today n sha hmem).1
  · intro n sha hmem
    rw [mainRun_trace, if_neg (by decide), if_neg (by decide), if_pos rfl] at hmem
    exact (pushAction_createBranch repo senv tenv today n sha hmem).1

/-- Witness for C8: the branch actually created by a concrete `pause` run
carries the predicted name. -/
theorem mainRun_branch_names_witness :
    "pause-prod-2024-01-01" = "pause-" ++ "prod" ++ "-" ++ "2024-01-01" :=
  (mainRun_branch_names sampleRepo "dev" "prod" "2024-01-01").1
    "pause-prod-2024-01-01" "abc123" (by decide)

/-- Claim C9: for every action string other than `pause`, `resume` and
`push`, `main` performs no repository mutation at all: the effect trace is
empty and the run completes. -/
theorem mainRun_unrecognized_action (repo : RepoState)
    (action sourceEnv targetEnv today : String)
    (h1 : ¬ action = "pause") (h2 : ¬ action = "resume") (h3 : ¬ action = "push") :
    mainRun repo action sourceEnv targetEnv today = ([], true) := by
  simp [mainRun, h1, h2, h3]

/-- Witness for C9: the unrecognized action `status` mutates nothing. -/
theorem mainRun_unrecognized_action_witness :
    mainRun sampleRepo "status" "dev" "prod" "2024-01-01" = ([], true) :=
  mainRun_unrecognized_action sampleRepo "status" "dev" "prod" "2024-01-01"
    (by decide) (by decide) (by decide)

/-- Claim C5: `pause` sets the annotation
`argocd-image-updater.argoproj.io/{service}.ignore-tags` to `*` and leaves
every other annotation entry (and their order) and the rest of the manifest
unchanged; in particular `{"a": "1"}` becomes
`{"a": "1", "argocd-image-updater.argoproj.io/svc.ignore-tags": "*"}`. -/
theorem pauseEdit_sets_ignore_tags (app : Manifest) (service : String) :
    dictGet (pauseEdit service app).annotations (ignoreTagsKey service) = some "*" ∧
    (pauseEdit service app).annotations.filter
        (fun p => ¬ p.1 = ignoreTagsKey service) =
      app.annotations.filter (fun p => ¬ p.1 = ignoreTagsKey service) ∧
    (pauseEdit service app).parameters = app.parameters ∧
    (pauseEdit "svc" { annotations := [("a", "1")], parameters := [] }).annotations =
      [("a", "1"), ("argocd-image-updater.argoproj.io/svc.ignore-tags", "*")] := by
  refine ⟨?_, ?_, rfl, by decide⟩
  · show dictGet (dictInsert app.annotations (ignoreTagsKey service) "*") _ = _
    rw [dictGet_dictInsert]
    simp
  · exact dictPop_dictInsert app.annotations (ignoreTagsKey service) "*"

/-- Claim C6: the `pause` edit is idempotent on the manifest document:
applying it twice yields the same document (hence the same serialized YAML)
as applying it once. -/
theorem pauseEdit_idempotent (service : String) (app : Manifest) :
    pauseEdit service (pauseEdit service app) = pauseEdit service app := by
  show ({ app with
      annotations := dictInsert (dictInsert app.annotations (ignoreTagsKey service) "*")
        (ignoreTagsKey service) "*" } : Manifest) =
    { app with annotations := dictInsert app.annotations (ignoreTagsKey service) "*" }
  rw [dictInsert_idem]

/-- Claim C7: `resume` removes the ignore-tags annotation key when present,
and when the key is absent it raises no error and leaves the manifest
unchanged. -/
theorem resumeEdit_removes_ignore_tags (app : Manifest) (service : String) :
    dictGet (resumeEdit service app).annotations (ignoreTagsKey service) = none ∧
    (dictGet app.annotations (ignoreTagsKey service) = none →
      resumeEdit service app = app) := by
  constructor
  · exact dictGet_dictPop app.annotations (ignoreTagsKey service)
  · intro h
    show ({ app with
        annotations := dictPop app.annotations (ignoreTagsKey service) } : Manifest) = app
    rw [dictPop_of_absent _ _ h]

/-- Witness for C7: removing the key from a manifest that lacks it changes
nothing. -/
theorem resumeEdit_removes_ignore_tags_witness :
    resumeEdit "svc" ({ annotations := [("a", "1")], parameters := [] } : Manifest)
      = { annotations := [("a", "1")], parameters := [] } :=
  (resumeEdit_removes_ignore_tags { annotations := [("a", "1")], parameters := [] }
    "svc").2 (by decide)

end GitOps
